import Mathlib

/-!
Shallow embedding of the text-processing core of the Story-Refiner-AI
repository (source files Dynamic_UI7.py, Dynamic_UI3.py, test_UI2.py).

Strings are modelled as lists of characters.  The Python string methods the
code relies on (strip, lstrip, splitlines, split, upper, join, slicing, the
membership operator on strings) are modelled on that representation, each by
a definition named after the method it embeds.
-/

namespace StoryRefiner

/-- Program strings are modelled as lists of characters. -/
abbrev Str := List Char

/-- Whitespace characters removed by Python str.strip with no argument.
Only the ASCII whitespace set (space, tab, newline, carriage return,
vertical tab, form feed) is modelled; exotic Unicode whitespace is not. -/
def isPySpace (c : Char) : Bool :=
  c = ' ' || c = '\t' || c = '\n' || c = '\r' || c = Char.ofNat 11 || c = Char.ofNat 12

/-- Python str.lstrip with no argument. -/
def stripLeft (s : Str) : Str := s.dropWhile isPySpace

/-- Python str.rstrip with no argument. -/
def stripRight (s : Str) : Str := (s.reverse.dropWhile isPySpace).reverse

/-- Python str.strip with no argument. -/
def pstrip (s : Str) : Str := stripRight (stripLeft s)

/-- First step of the str.splitlines model: a CRLF pair collapses to a single
line boundary. -/
def normalizeCRLF : Str → Str
  | [] => []
  | [c] => [c]
  | c :: d :: rest =>
    if c = '\r' && d = '\n' then '\n' :: normalizeCRLF rest
    else c :: normalizeCRLF (d :: rest)

/-- Second step of the str.splitlines model: split at every line-boundary
character, keeping a (possibly empty) segment between any two boundaries.
The result is always nonempty. -/
def splitOnNl : Str → List Str
  | [] => [[]]
  | c :: rest =>
    if c = '\n' || c = '\r' then [] :: splitOnNl rest
    else
      match splitOnNl rest with
      | [] => [[c]]
      | l :: ls => (c :: l) :: ls

/-- Python str.splitlines.  Boundaries modelled: LF, CR and CRLF; the exotic
boundaries Python also recognises (vertical tab, form feed, U+001C..U+001E,
U+0085, U+2028, U+2029) are not modelled, matching the line endings actually
produced by the collaborators of this program.  A terminal boundary does not
contribute a trailing empty line, and an empty string has no lines. -/
def splitlines (s : Str) : List Str :=
  let parts := splitOnNl (normalizeCRLF s)
  if parts.getLast? = some [] then parts.dropLast else parts

/-- Python sep.join(parts). -/
def joinSep (sep : Str) : List Str → Str
  | [] => []
  | [x] => x
  | x :: y :: t => x ++ sep ++ joinSep sep (y :: t)

/-- Index of the first occurrence of pat in s, Python str.find (restricted to
found/not-found information plus the index). -/
def findSub (pat : Str) : Str → Option Nat
  | [] => if pat = [] then some 0 else none
  | c :: rest =>
    if pat.isPrefixOf (c :: rest) then some 0
    else (findSub pat rest).map (· + 1)

/-- Python substring membership, the expression pat in s. -/
def containsSub (pat s : Str) : Bool := (findSub pat s).isSome

/-- Python s.split(pat, 1): the text before the first occurrence of pat and,
when pat occurs, the text after that occurrence. -/
def split1 (pat s : Str) : Str × Option Str :=
  match findSub pat s with
  | some i => (s.take i, some (s.drop (i + pat.length)))
  | none => (s, none)

/-- Marker literal scanned for by parse_refined_output (summary section). -/
def mRefinedStory : Str := "**Refined User Story:**".toList

/-- Marker literal scanned for by parse_refined_output (criteria section). -/
def mAcceptCriteria : Str := "**Acceptance Criteria:**".toList

/-- Marker literal the criteria block is split at (suggestions section). -/
def mSuggestions : Str := "**Suggestions for Improvement:**".toList

/-- Block-delimiter literal that resets the parser mode. -/
def dashes : Str := "---".toList

/-- Idempotency marker appended by the plain refinement description. -/
def mRefinedBy : Str := "_Refined by AI agent_".toList

/-- Idempotency marker appended when implementation tasks are included. -/
def mRefinedBroken : Str := "_Refined and broken down by AI agent_".toList

/-- Bold marker pair checked by parse_task_lines. -/
def boldMarker : Str := "**".toList

/-- Python str.upper, modelled on ASCII letters only (the characters produced
by the heuristics in this program). -/
def pyUpper (s : Str) : Str := s.map Char.toUpper

/-- State-machine word counter: computes the length of Python s.split(), the
number of maximal runs of non-whitespace characters.  The flag records
whether the previous character was inside a word. -/
def wordsAux : Bool → Str → Nat
  | _, [] => 0
  | inWord, c :: rest =>
    if isPySpace c then wordsAux false rest
    else (if inWord then 0 else 1) + wordsAux true rest

/-- Length of Python s.split() (whitespace split, empty pieces dropped). -/
def countWords (s : Str) : Nat := wordsAux false s

/-- Cleaning step of parse_task_lines (Dynamic_UI7.py line 91):
line.strip().lstrip("-•").strip().  Python lstrip with an argument removes
every leading character belonging to the given set. -/
def clean_line (line : Str) : Str :=
  pstrip ((pstrip line).dropWhile (fun c => c = '-' || c = '•'))

/-- Heading test of parse_task_lines (line 95): clean.endswith(":"). -/
def endsWithColon (clean : Str) : Bool := List.isSuffixOf [':'] clean

/-- Bold-wrap test of parse_task_lines (line 97):
clean.startswith("**") and clean.endswith("**"). -/
def isBoldWrapped (clean : Str) : Bool :=
  List.isPrefixOf boldMarker clean && List.isSuffixOf boldMarker clean

/-- Short-all-caps test of parse_task_lines (line 99):
len(clean.split()) smaller or equal to 4 and clean == clean.upper(). -/
def isShortCaps (clean : Str) : Bool :=
  decide (countWords clean ≤ 4) && decide (clean = pyUpper clean)

/-- parse_task_lines (Dynamic_UI7.py lines 86-102): clean each line and skip
it when the cleaned form is empty, ends with a colon, is wrapped in the bold
marker pair, or is a short all-caps phrase; keep the other cleaned lines in
order. -/
def parse_task_lines : List Str → List Str
  | [] => []
  | line :: rest =>
    if (clean_line line).isEmpty then parse_task_lines rest
    else if endsWithColon (clean_line line) then parse_task_lines rest
    else if isBoldWrapped (clean_line line) then parse_task_lines rest
    else if isShortCaps (clean_line line) then parse_task_lines rest
    else clean_line line :: parse_task_lines rest

/-- Keep-condition stated by claim C4: a cleaned line is kept exactly when it
is not empty, does not end with a colon, is not wrapped in the bold marker
pair, and is not a short all-caps phrase. -/
def keepLineSpec (clean : Str) : Bool :=
  !(clean.isEmpty || endsWithColon clean || isBoldWrapped clean || isShortCaps clean)

/-- Parser mode of parse_refined_output, the Python variable mode with values
None, "summary" and "criteria". -/
inductive PMode
  | none
  | summary
  | criteria
deriving DecidableEq

/-- Loop body of parse_refined_output (Dynamic_UI7.py lines 158-171): the
state is the mode together with the two accumulator lists. -/
def stepLine (st : PMode × List Str × List Str) (line : Str) : PMode × List Str × List Str :=
  if containsSub mRefinedStory line then (PMode.summary, st.2.1, st.2.2)
  else if containsSub mAcceptCriteria line then (PMode.criteria, st.2.1, st.2.2)
  else if pstrip line = dashes then (PMode.none, st.2.1, st.2.2)
  else
    match st.1 with
    | PMode.summary => (PMode.summary, st.2.1 ++ [pstrip line], st.2.2)
    | PMode.criteria => (PMode.criteria, st.2.1, st.2.2 ++ [pstrip line])
    | PMode.none => (PMode.none, st.2.1, st.2.2)

/-- parse_refined_output (Dynamic_UI7.py lines 153-175, identical in
Dynamic_UI3.py and test_UI2.py): scan the reply line by line folding
stepLine over the lines, then join the summary accumulator with single
spaces and the criteria accumulator with newlines, stripping each result. -/
def parse_refined_output (output : Str) : Str × Str :=
  (pstrip (joinSep [' '] ((splitlines output).foldl stepLine (PMode.none, [], [])).2.1),
   pstrip (joinSep ['\n'] ((splitlines output).foldl stepLine (PMode.none, [], [])).2.2))

/-- Mode-machine formulation of the scan described by claim C1: a line
containing the summary marker switches the mode to summary and is discarded,
a line containing the criteria marker switches the mode to criteria and is
discarded, a line stripping to the dashes delimiter resets the mode and is
discarded; a trimmed line seen in summary or criteria mode joins the
corresponding classified list, and lines seen in mode none are dropped. -/
def scanClassify : PMode → List Str → List Str × List Str
  | _, [] => ([], [])
  | mode, line :: rest =>
    if containsSub mRefinedStory line then scanClassify PMode.summary rest
    else if containsSub mAcceptCriteria line then scanClassify PMode.criteria rest
    else if pstrip line = dashes then scanClassify PMode.none rest
    else
      match mode with
      | PMode.summary =>
          (pstrip line :: (scanClassify PMode.summary rest).1, (scanClassify PMode.summary rest).2)
      | PMode.criteria =>
          ((scanClassify PMode.criteria rest).1, pstrip line :: (scanClassify PMode.criteria rest).2)
      | PMode.none => scanClassify PMode.none rest

/-! Basic facts about the string model. -/

theorem stripLeft_sublist (s : Str) : List.Sublist (stripLeft s) s :=
  List.dropWhile_sublist _

theorem stripRight_sublist (s : Str) : List.Sublist (stripRight s) s := by
  have h : List.Sublist (s.reverse.dropWhile isPySpace) s.reverse := List.dropWhile_sublist _
  have h2 := h.reverse
  simpa [stripRight] using h2

theorem pstrip_sublist (s : Str) : List.Sublist (pstrip s) s :=
  (stripRight_sublist (stripLeft s)).trans (stripLeft_sublist s)

theorem mem_of_mem_pstrip {c : Char} {s : Str} (h : c ∈ pstrip s) : c ∈ s :=
  (pstrip_sublist s).subset h

theorem splitOnNl_ne_nil (s : Str) : splitOnNl s ≠ [] := by
  cases s with
  | nil => simp [splitOnNl]
  | cons c rest =>
    simp only [splitOnNl]
    split
    · simp
    · split <;> simp

theorem mem_splitOnNl (s : Str) : ∀ l ∈ splitOnNl s, '\n' ∉ l ∧ '\r' ∉ l := by
  induction s with
  | nil =>
    intro l hl
    simp only [splitOnNl, List.mem_singleton] at hl
    subst hl; simp
  | cons c rest ih =>
    intro l hl
    simp only [splitOnNl] at hl
    by_cases h : (c = '\n' || c = '\r') = true
    · rw [if_pos h] at hl
      rcases List.mem_cons.mp hl with rfl | hl'
      · simp
      · exact ih l hl'
    · rw [if_neg h] at hl
      have hc : c ≠ '\n' ∧ c ≠ '\r' := by
        constructor <;> intro hh <;> subst hh <;> simp at h
      rcases hrec : splitOnNl rest with _ | ⟨l0, ls⟩
      · exact absurd hrec (splitOnNl_ne_nil rest)
      · rw [hrec] at hl
        rcases List.mem_cons.mp hl with rfl | hl'
        · have h0 := ih l0 (by rw [hrec]; exact List.mem_cons_self _ _)
          refine ⟨fun hm => ?_, fun hm => ?_⟩
          · rcases List.mem_cons.mp hm with he | hm'
            · exact hc.1 he.symm
            · exact h0.1 hm'
          · rcases List.mem_cons.mp hm with he | hm'
            · exact hc.2 he.symm
            · exact h0.2 hm'
        · exact ih l (by rw [hrec]; exact List.mem_cons_of_mem _ hl')

theorem mem_splitlines (s : Str) : ∀ l ∈ splitlines s, '\n' ∉ l ∧ '\r' ∉ l := by
  intro l hl
  have hmem : l ∈ splitOnNl (normalizeCRLF s) := by
    simp only [splitlines] at hl
    by_cases h : (splitOnNl (normalizeCRLF s)).getLast? = some ([] : Str)
    · rw [if_pos h] at hl
      exact (List.dropLast_sublist _).mem hl
    · rw [if_neg h] at hl
      exact hl
  exact mem_splitOnNl _ l hmem

theorem mem_joinSep {sep : Str} {ls : List Str} {c : Char} (h : c ∈ joinSep sep ls) :
    c ∈ sep ∨ ∃ l ∈ ls, c ∈ l := by
  induction ls with
  | nil => simp [joinSep] at h
  | cons x t ih =>
    cases t with
    | nil =>
      simp only [joinSep] at h
      exact Or.inr ⟨x, by simp, h⟩
    | cons y t' =>
      simp only [joinSep, List.mem_append] at h
      rcases h with (hx | hsep) | hrest
      · exact Or.inr ⟨x, by simp, hx⟩
      · exact Or.inl hsep
      · rcases ih hrest with hsep | ⟨l, hl, hc⟩
        · exact Or.inl hsep
        · exact Or.inr ⟨l, List.mem_cons_of_mem _ hl, hc⟩

/-! Facts about substring search, relating it to the infix order. -/

theorem findSub_eq_some (pat s : Str) :
    ∀ i, findSub pat s = some i → pat <+: s.drop i := by
  induction s with
  | nil =>
    intro i h
    simp only [findSub] at h
    by_cases hp : pat = ([] : Str)
    · rw [if_pos hp] at h; cases h; simp [hp]
    · rw [if_neg hp] at h; cases h
  | cons c rest ih =>
    intro i h
    simp only [findSub] at h
    by_cases hp : pat.isPrefixOf (c :: rest) = true
    · rw [if_pos hp] at h; cases h
      simpa using List.isPrefixOf_iff_prefix.mp hp
    · rw [if_neg hp] at h
      rcases hj : findSub pat rest with _ | j
      · rw [hj] at h; cases h
      · rw [hj] at h
        simp only [Option.map_some', Option.some.injEq] at h
        subst h
        simpa using ih j hj

theorem findSub_min (pat s : Str) :
    ∀ i, findSub pat s = some i → ∀ j, j < i → ¬ pat <+: s.drop j := by
  induction s with
  | nil =>
    intro i h j hj
    simp only [findSub] at h
    by_cases hp : pat = ([] : Str)
    · rw [if_pos hp] at h; cases h; omega
    · rw [if_neg hp] at h; cases h
  | cons c rest ih =>
    intro i h j hj
    simp only [findSub] at h
    by_cases hp : pat.isPrefixOf (c :: rest) = true
    · rw [if_pos hp] at h; cases h; omega
    · rw [if_neg hp] at h
      rcases hk : findSub pat rest with _ | k
      · rw [hk] at h; cases h
      · rw [hk] at h
        simp only [Option.map_some', Option.some.injEq] at h
        subst h
        cases j with
        | zero =>
          intro hpre
          exact hp (List.isPrefixOf_iff_prefix.mpr (by simpa using hpre))
        | succ j' =>
          have := ih k hk j' (by omega)
          simpa using this

theorem findSub_eq_none (pat s : Str) (h : findSub pat s = none) :
    ∀ j, ¬ pat <+: s.drop j := by
  induction s with
  | nil =>
    intro j hpre
    simp only [findSub] at h
    by_cases hp : pat = ([] : Str)
    · rw [if_pos hp] at h; cases h
    · rw [if_neg hp] at h
      simp only [List.drop_nil] at hpre
      exact hp (List.prefix_nil.mp hpre)
  | cons c rest ih =>
    intro j hpre
    simp only [findSub] at h
    by_cases hp : pat.isPrefixOf (c :: rest) = true
    · rw [if_pos hp] at h; cases h
    · rw [if_neg hp] at h
      rcases hk : findSub pat rest with _ | k
      · cases j with
        | zero =>
          exact hp (List.isPrefixOf_iff_prefix.mpr (by simpa using hpre))
        | succ j' =>
          exact ih hk j' (by simpa using hpre)
      · rw [hk] at h; simp at h

theorem infix_iff_drop (pat s : Str) : pat <:+: s ↔ ∃ i, pat <+: s.drop i := by
  constructor
  · rintro ⟨u, v, rfl⟩
    refine ⟨u.length, ?_⟩
    rw [List.append_assoc, List.drop_left]
    exact List.prefix_append pat v
  · rintro ⟨i, t, ht⟩
    exact ⟨s.take i, t, by rw [List.append_assoc, ht, List.take_append_drop]⟩

theorem containsSub_iff (pat s : Str) : containsSub pat s = true ↔ pat <:+: s := by
  unfold containsSub
  rw [Option.isSome_iff_exists]
  constructor
  · rintro ⟨i, hi⟩
    exact (infix_iff_drop pat s).mpr ⟨i, findSub_eq_some pat s i hi⟩
  · intro h
    rcases (infix_iff_drop pat s).mp h with ⟨i, hi⟩
    rcases hf : findSub pat s with _ | k
    · exact absurd hi (findSub_eq_none pat s hf i)
    · exact ⟨k, rfl⟩

theorem containsSub_eq_false {pat s : Str} (h : ¬ pat <:+: s) : containsSub pat s = false := by
  rcases hb : containsSub pat s with _ | _
  · rfl
  · exact absurd ((containsSub_iff pat s).mp hb) h

/-! Facts about the line scan of parse_refined_output. -/

theorem foldl_stepLine_eq (ls : List Str) :
    ∀ (m : PMode) (sa ca : List Str),
      ((ls.foldl stepLine (m, sa, ca)).2.1 = sa ++ (scanClassify m ls).1)
        ∧ ((ls.foldl stepLine (m, sa, ca)).2.2 = ca ++ (scanClassify m ls).2) := by
  induction ls with
  | nil => intro m sa ca; simp [scanClassify]
  | cons line rest ih =>
    intro m sa ca
    simp only [List.foldl_cons]
    by_cases h1 : containsSub mRefinedStory line = true
    · simpa [stepLine, scanClassify, h1] using ih PMode.summary sa ca
    · by_cases h2 : containsSub mAcceptCriteria line = true
      · simpa [stepLine, scanClassify, h1, h2] using ih PMode.criteria sa ca
      · by_cases h3 : pstrip line = dashes
        · simpa [stepLine, scanClassify, h1, h2, h3] using ih PMode.none sa ca
        · cases m with
          | summary =>
            have hi := ih PMode.summary (sa ++ [pstrip line]) ca
            simp only [stepLine, scanClassify, h1, h2, h3, if_false] at hi ⊢
            simpa [List.append_assoc] using hi
          | criteria =>
            have hi := ih PMode.criteria sa (ca ++ [pstrip line])
            simp only [stepLine, scanClassify, h1, h2, h3, if_false] at hi ⊢
            simpa [List.append_assoc] using hi
          | none =>
            simpa [stepLine, scanClassify, h1, h2, h3] using ih PMode.none sa ca

theorem scanClassify_fst_mem (ls : List Str) :
    ∀ (m : PMode) (x : Str), x ∈ (scanClassify m ls).1 → ∃ l ∈ ls, x = pstrip l := by
  induction ls with
  | nil => intro m x hx; simp [scanClassify] at hx
  | cons line rest ih =>
    intro m x hx
    simp only [scanClassify] at hx
    by_cases h1 : containsSub mRefinedStory line = true
    · rw [if_pos h1] at hx
      obtain ⟨l, hl, he⟩ := ih PMode.summary x hx
      exact ⟨l, List.mem_cons_of_mem _ hl, he⟩
    · rw [if_neg h1] at hx
      by_cases h2 : containsSub mAcceptCriteria line = true
      · rw [if_pos h2] at hx
        obtain ⟨l, hl, he⟩ := ih PMode.criteria x hx
        exact ⟨l, List.mem_cons_of_mem _ hl, he⟩
      · rw [if_neg h2] at hx
        by_cases h3 : pstrip line = dashes
        · rw [if_pos h3] at hx
          obtain ⟨l, hl, he⟩ := ih PMode.none x hx
          exact ⟨l, List.mem_cons_of_mem _ hl, he⟩
        · rw [if_neg h3] at hx
          cases m with
          | summary =>
            rcases List.mem_cons.mp hx with rfl | hx'
            · exact ⟨line, List.mem_cons_self _ _, rfl⟩
            · obtain ⟨l, hl, he⟩ := ih PMode.summary x hx'
              exact ⟨l, List.mem_cons_of_mem _ hl, he⟩
          | criteria =>
            obtain ⟨l, hl, he⟩ := ih PMode.criteria x hx
            exact ⟨l, List.mem_cons_of_mem _ hl, he⟩
          | none =>
            obtain ⟨l, hl, he⟩ := ih PMode.none x hx
            exact ⟨l, List.mem_cons_of_mem _ hl, he⟩

theorem scanClassify_snd_mem (ls : List Str) :
    ∀ (m : PMode) (x : Str), x ∈ (scanClassify m ls).2 →
      ∃ l ∈ ls, x = pstrip l ∧ x ≠ dashes := by
  induction ls with
  | nil => intro m x hx; simp [scanClassify] at hx
  | cons line rest ih =>
    intro m x hx
    simp only [scanClassify] at hx
    by_cases h1 : containsSub mRefinedStory line = true
    · rw [if_pos h1] at hx
      obtain ⟨l, hl, he⟩ := ih PMode.summary x hx
      exact ⟨l, List.mem_cons_of_mem _ hl, he⟩
    · rw [if_neg h1] at hx
      by_cases h2 : containsSub mAcceptCriteria line = true
      · rw [if_pos h2] at hx
        obtain ⟨l, hl, he⟩ := ih PMode.criteria x hx
        exact ⟨l, List.mem_cons_of_mem _ hl, he⟩
      · rw [if_neg h2] at hx
        by_cases h3 : pstrip line = dashes
        · rw [if_pos h3] at hx
          obtain ⟨l, hl, he⟩ := ih PMode.none x hx
          exact ⟨l, List.mem_cons_of_mem _ hl, he⟩
        · rw [if_neg h3] at hx
          cases m with
          | summary =>
            obtain ⟨l, hl, he⟩ := ih PMode.summary x hx
            exact ⟨l, List.mem_cons_of_mem _ hl, he⟩
          | criteria =>
            rcases List.mem_cons.mp hx with rfl | hx'
            · exact ⟨line, List.mem_cons_self _ _, rfl, h3⟩
            · obtain ⟨l, hl, he⟩ := ih PMode.criteria x hx'
              exact ⟨l, List.mem_cons_of_mem _ hl, he⟩
          | none =>
            obtain ⟨l, hl, he⟩ := ih PMode.none x hx
            exact ⟨l, List.mem_cons_of_mem _ hl, he⟩

theorem scanClassify_no_markers (ls : List Str)
    (h : ∀ l ∈ ls, containsSub mRefinedStory l = false ∧ containsSub mAcceptCriteria l = false) :
    scanClassify PMode.none ls = ([], []) := by
  induction ls with
  | nil => rfl
  | cons line rest ih =>
    have h1 := (h line (List.mem_cons_self _ _)).1
    have h2 := (h line (List.mem_cons_self _ _)).2
    have hrest := ih (fun l hl => h l (List.mem_cons_of_mem _ hl))
    by_cases h3 : pstrip line = dashes
    · simpa [scanClassify, h1, h2, h3] using hrest
    · simpa [scanClassify, h1, h2, h3] using hrest

theorem parse_eq_scanClassify (output : Str) :
    parse_refined_output output
      = (pstrip (joinSep [' '] (scanClassify PMode.none (splitlines output)).1),
         pstrip (joinSep ['\n'] (scanClassify PMode.none (splitlines output)).2)) := by
  have hf := foldl_stepLine_eq (splitlines output) PMode.none [] []
  unfold parse_refined_output
  rw [hf.1, hf.2]
  simp

/-- Claim C1: parse_refined_output scans its input line by line with a mode
in (none, summary, criteria), where a line containing the summary marker
switches the mode to summary and is discarded, a line containing the
criteria marker switches the mode to criteria and is discarded, and a line
whose trimmed content is exactly the dashes delimiter resets the mode and is
discarded; the trimmed lines seen in summary mode are joined with single
spaces (and trimmed), so the returned summary is a single paragraph with no
newline character, the trimmed lines seen in criteria mode are joined with
newlines (and trimmed), one original item per line, and lines seen while the
mode is none are dropped. -/
theorem parse_refined_output_characterization (output : Str) :
    parse_refined_output output
        = (pstrip (joinSep [' '] (scanClassify PMode.none (splitlines output)).1),
           pstrip (joinSep ['\n'] (scanClassify PMode.none (splitlines output)).2))
      ∧ '\n' ∉ (parse_refined_output output).1 := by
  have heq := parse_eq_scanClassify output
  refine ⟨heq, ?_⟩
  rw [heq]
  intro hc
  have hc2 := mem_of_mem_pstrip hc
  rcases mem_joinSep hc2 with hsep | ⟨l, hl, hcl⟩
  · simp at hsep
  · obtain ⟨l0, hl0, rfl⟩ := scanClassify_fst_mem (splitlines output) PMode.none l hl
    exact (mem_splitlines output l0 hl0).1 (mem_of_mem_pstrip hcl)

/-- Claim C2: on any input none of whose lines contains the summary marker
or the criteria marker, parse_refined_output returns two empty strings (the
embedding is a total function, so no exception is possible). -/
theorem parse_refined_output_no_markers (output : Str)
    (h : ∀ l ∈ splitlines output, ¬ mRefinedStory <:+: l ∧ ¬ mAcceptCriteria <:+: l) :
    parse_refined_output output = ([], []) := by
  have hscan : scanClassify PMode.none (splitlines output) = ([], []) :=
    scanClassify_no_markers _ (fun l hl =>
      ⟨containsSub_eq_false (h l hl).1, containsSub_eq_false (h l hl).2⟩)
  rw [parse_eq_scanClassify output, hscan]
  rfl

/-- Witness for claim C2 at a concrete marker-free input. -/
theorem parse_refined_output_no_markers_witness :
    parse_refined_output ("hello\nworld\n---\nmore text".toList) = ([], []) :=
  parse_refined_output_no_markers ("hello\nworld\n---\nmore text".toList) (by decide)

/-! The split of the criteria block at the suggestions marker. -/

theorem split1_eq_some (pat s before after : Str)
    (h : split1 pat s = (before, some after)) :
    ∃ i, findSub pat s = some i ∧ before = s.take i ∧ after = s.drop (i + pat.length) := by
  rcases hf : findSub pat s with _ | i
  · unfold split1 at h
    rw [hf] at h
    simp at h
  · unfold split1 at h
    rw [hf] at h
    simp only [Prod.mk.injEq, Option.some.injEq] at h
    exact ⟨i, rfl, h.1.symm, h.2.symm⟩

theorem split1_decompose (pat s before after : Str)
    (h : split1 pat s = (before, some after)) :
    s = before ++ pat ++ after ∧ ∀ j < before.length, ¬ pat <+: s.drop j := by
  obtain ⟨i, hf, hb, ha⟩ := split1_eq_some pat s before after h
  obtain ⟨t, ht⟩ := findSub_eq_some pat s i hf
  have hafter : after = t := by
    rw [ha, ← List.drop_drop, ← ht, List.drop_left]
  constructor
  · rw [hb, hafter, List.append_assoc, ht, List.take_append_drop]
  · intro j hj
    have hji : j < i := by
      have : before.length ≤ i := by
        rw [hb]
        simp [List.length_take_le]
      omega
    exact findSub_min pat s i hf j hji

/-- Claim C7: the suggestions split divides the criteria block at the first
occurrence of the suggestions marker, the text before becoming criteria and
the text after becoming suggestions; when the marker is absent the whole
block is criteria with suggestions absent, and on marker-less input the
operation is idempotent. -/
theorem split1_suggestions_first_occurrence (block : Str) :
    (∀ before after, split1 mSuggestions block = (before, some after) →
        block = before ++ mSuggestions ++ after
          ∧ ∀ j < before.length, ¬ mSuggestions <+: block.drop j)
      ∧ (mSuggestions <:+: block →
          ∃ before after, split1 mSuggestions block = (before, some after))
      ∧ (¬ mSuggestions <:+: block →
          split1 mSuggestions block = (block, none)
            ∧ split1 mSuggestions (split1 mSuggestions block).1 = (block, none)) := by
  refine ⟨fun before after h => split1_decompose _ _ _ _ h, ?_, ?_⟩
  · intro hinf
    rcases (infix_iff_drop _ _).mp hinf with ⟨i, hi⟩
    rcases hf : findSub mSuggestions block with _ | k
    · exact absurd hi (findSub_eq_none _ _ hf i)
    · refine ⟨block.take k, block.drop (k + mSuggestions.length), ?_⟩
      unfold split1
      rw [hf]
  · intro hninf
    have hf : findSub mSuggestions block = none := by
      rcases hf : findSub mSuggestions block with _ | k
      · rfl
      · exact absurd ((infix_iff_drop _ _).mpr ⟨k, findSub_eq_some _ _ k hf⟩) hninf
    have h1 : split1 mSuggestions block = (block, none) := by
      unfold split1
      rw [hf]
    exact ⟨h1, by rw [h1, h1]⟩

/-- Witness for claim C7: the split applied at a block containing the
suggestions marker and at a marker-free block. -/
theorem split1_suggestions_first_occurrence_witness :
    ("abc**Suggestions for Improvement:**def".toList
        = "abc".toList ++ mSuggestions ++ "def".toList)
      ∧ (∃ before after,
          split1 mSuggestions ("abc**Suggestions for Improvement:**def".toList)
            = (before, some after))
      ∧ split1 mSuggestions ("plain criteria".toList) = ("plain criteria".toList, none) :=
  ⟨((split1_suggestions_first_occurrence
        ("abc**Suggestions for Improvement:**def".toList)).1
      "abc".toList "def".toList (by decide)).1,
   (split1_suggestions_first_occurrence
        ("abc**Suggestions for Improvement:**def".toList)).2.1 (by decide),
   ((split1_suggestions_first_occurrence ("plain criteria".toList)).2.2 (by decide)).1⟩

/-! Idempotence of the Python strip model. -/

theorem dropWhile_idem (p : Char → Bool) (l : Str) :
    (l.dropWhile p).dropWhile p = l.dropWhile p := by
  induction l with
  | nil => rfl
  | cons c t ih =>
    by_cases h : p c = true
    · rw [List.dropWhile_cons_of_pos h]
      exact ih
    · rw [List.dropWhile_cons_of_neg h, List.dropWhile_cons_of_neg h]

theorem stripLeft_idem (s : Str) : stripLeft (stripLeft s) = stripLeft s :=
  dropWhile_idem isPySpace s

theorem stripRight_idem (s : Str) : stripRight (stripRight s) = stripRight s := by
  unfold stripRight
  rw [List.reverse_reverse]
  rw [dropWhile_idem]

theorem stripLeft_front_part {p y : Str} (hp : p <+: y) (hy : stripLeft y = y) :
    stripLeft p = p := by
  cases p with
  | nil => rfl
  | cons c t =>
    have hc : isPySpace c = false := by
      obtain ⟨rest, hrest⟩ := hp
      rcases hb : isPySpace c with _ | _
      · rfl
      · exfalso
        rw [← hrest] at hy
        rw [show (c :: t ++ rest) = c :: (t ++ rest) by simp] at hy
        rw [stripLeft, List.dropWhile_cons_of_pos hb] at hy
        have hlen := congrArg List.length hy
        have hle := (List.dropWhile_sublist (l := t ++ rest) isPySpace).length_le
        rw [List.length_cons] at hlen
        omega
    rw [stripLeft, List.dropWhile_cons_of_neg (by simp [hc])]

theorem stripRight_front (s : Str) : stripRight s <+: s := by
  have h := (List.dropWhile_suffix isPySpace (l := s.reverse)).reverse
  rwa [List.reverse_reverse] at h

theorem pstrip_idem (s : Str) : pstrip (pstrip s) = pstrip s := by
  unfold pstrip
  rw [stripLeft_front_part (stripRight_front (stripLeft s)) (stripLeft_idem s),
    stripRight_idem]

/-! The task-line filter. -/

/-- Claim C4: parse_task_lines cleans every line (leading bullet characters
and surrounding whitespace removed) and keeps exactly the cleaned lines
satisfying the keep-condition of the claim, in their original order; on the
concrete example of the claim it returns exactly the two task lines. -/
theorem parse_task_lines_characterization :
    (∀ lines, parse_task_lines lines = (lines.map clean_line).filter keepLineSpec)
      ∧ parse_task_lines
          ["**User Management:**".toList, "- Create signup form".toList,
           "TOTALS:".toList, "- Add password reset".toList, "DONE".toList]
        = ["Create signup form".toList, "Add password reset".toList] := by
  constructor
  · intro lines
    induction lines with
    | nil => rfl
    | cons line rest ih =>
      by_cases h1 : (clean_line line).isEmpty = true
      · simp [parse_task_lines, keepLineSpec, h1, ih]
      · by_cases h2 : endsWithColon (clean_line line) = true
        · simp [parse_task_lines, keepLineSpec, h1, h2, ih]
        · by_cases h3 : isBoldWrapped (clean_line line) = true
          · simp [parse_task_lines, keepLineSpec, h1, h2, h3, ih]
          · by_cases h4 : isShortCaps (clean_line line) = true
            · simp [parse_task_lines, keepLineSpec, h1, h2, h3, h4, ih]
            · simp [parse_task_lines, keepLineSpec, h1, h2, h3, h4, ih]
  · decide

/-- Claim C10 counterexample: on the input line consisting of a bullet,
a space, a second bullet and the word x, the single output of
parse_task_lines begins with a bullet character, because Python lstrip only
removes the leading run of bullet characters and stops at the space. -/
theorem parse_task_lines_bullet_counterexample :
    parse_task_lines [("- - x").toList] = [("- x").toList]
      ∧ (("- x").toList).head? = some '-' := by
  constructor
  · decide
  · rfl

/-- Claim C10 (amended): every string in the output of parse_task_lines is
non-empty and has no leading or trailing whitespace; it can however still
begin with a bullet character when the leading bullet run of the line is
interrupted by whitespace, since only the first bullet run is removed. -/
theorem parse_task_lines_trimmed (lines : List Str) :
    ∀ x ∈ parse_task_lines lines, x ≠ [] ∧ pstrip x = x := by
  induction lines with
  | nil => intro x hx; simp [parse_task_lines] at hx
  | cons line rest ih =>
    intro x hx
    by_cases h1 : (clean_line line).isEmpty = true
    · rw [parse_task_lines, if_pos h1] at hx
      exact ih x hx
    · rw [parse_task_lines, if_neg h1] at hx
      by_cases h2 : endsWithColon (clean_line line) = true
      · rw [if_pos h2] at hx
        exact ih x hx
      · rw [if_neg h2] at hx
        by_cases h3 : isBoldWrapped (clean_line line) = true
        · rw [if_pos h3] at hx
          exact ih x hx
        · rw [if_neg h3] at hx
          by_cases h4 : isShortCaps (clean_line line) = true
          · rw [if_pos h4] at hx
            exact ih x hx
          · rw [if_neg h4] at hx
            rcases List.mem_cons.mp hx with rfl | hx'
            · refine ⟨by simpa [List.isEmpty_iff] using h1, ?_⟩
              unfold clean_line
              rw [pstrip_idem]
            · exact ih x hx'

/-- Witness for the amended claim C10 at a concrete input. -/
theorem parse_task_lines_trimmed_witness :
    "task one".toList ≠ ([] : Str) ∧ pstrip ("task one".toList) = "task one".toList :=
  parse_task_lines_trimmed ["- task one".toList] ("task one".toList) (by decide)

/-! The composed descriptions written back to the tracker. -/

/-- refined_description of the Update Jira action (Dynamic_UI7.py lines
256-261, identical in Dynamic_UI3.py lines 193-198): the refined summary and
the criteria block re-assembled as a bulleted list, closed by the refinement
marker. -/
def refined_description (summary criteria : Str) : Str :=
  "**Refined User Story:**  ".toList ++ summary
    ++ "\n\n**Acceptance Criteria:**  \n- ".toList
    ++ joinSep ("\n- ".toList) (splitlines criteria)
    ++ "\n\n_Refined by AI agent_".toList

/-- Payload of the Update Jira call (lines 263-266): the summary truncated
to 255 characters for the title field, the composed description in full. -/
def update_jira_payload (summary criteria : Str) : Str × Str :=
  (summary.take 255, refined_description summary criteria)

/-- Description of the Update Jira with Tasks action (lines 328-335): like
refined_description but with the task-breakdown text and the
refined-and-broken-down marker appended. -/
def refined_description_tasks (summary criteria taskBreakdown : Str) : Str :=
  "**Refined User Story:**  ".toList ++ summary
    ++ "\n\n**Acceptance Criteria:**  \n- ".toList
    ++ joinSep ("\n- ".toList) (splitlines criteria)
    ++ "\n\n**Implementation Tasks:**\n".toList ++ taskBreakdown
    ++ "\n\n_Refined and broken down by AI agent_".toList

/-- Payload of the Update Jira with Tasks call (lines 337-340). -/
def update_jira_tasks_payload (summary criteria taskBreakdown : Str) : Str × Str :=
  (summary.take 255, refined_description_tasks summary criteria taskBreakdown)

theorem summary_infix_refined_description (S C : Str) :
    S <:+: refined_description S C := by
  refine ⟨"**Refined User Story:**  ".toList,
    "\n\n**Acceptance Criteria:**  \n- ".toList
      ++ joinSep ("\n- ".toList) (splitlines C)
      ++ "\n\n_Refined by AI agent_".toList, ?_⟩
  simp [refined_description, List.append_assoc]

/-- Claim C5: the summary written to the tracker title field is exactly the
first 255 characters of the refined summary (the whole summary when it has
at most 255 characters), while the composed description embeds the refined
summary in full; in particular for a 300-character summary the title is its
first 255 characters and the full summary occurs in the description. -/
theorem update_jira_payload_truncation :
    (∀ S C : Str,
        (update_jira_payload S C).1 = S.take 255
          ∧ (S.length ≤ 255 → (update_jira_payload S C).1 = S)
          ∧ S <:+: (update_jira_payload S C).2)
      ∧ (∀ C : Str,
          (update_jira_payload (List.replicate 300 'a') C).1 = List.replicate 255 'a'
            ∧ (List.replicate 300 'a') <:+:
                (update_jira_payload (List.replicate 300 'a') C).2) := by
  constructor
  · intro S C
    exact ⟨rfl, fun h => List.take_of_length_le h, summary_infix_refined_description S C⟩
  · intro C
    constructor
    · show (List.replicate 300 'a').take 255 = List.replicate 255 'a'
      rw [List.take_replicate]
      norm_num
    · exact summary_infix_refined_description (List.replicate 300 'a') C

/-- Witness for claim C5: the theorem applied at a concrete short summary,
discharging the length hypothesis. -/
theorem update_jira_payload_truncation_witness :
    (update_jira_payload ("Add login flow".toList) ("c1".toList)).1 = "Add login flow".toList :=
  (update_jira_payload_truncation.1 ("Add login flow".toList) ("c1".toList)).2.1 (by decide)

theorem bullet_occurs (post : Str) (ls : List Str) :
    ∀ l ∈ ls,
      ('\n' :: '-' :: ' ' :: (l ++ ['\n'])) <:+:
        ('\n' :: '-' :: ' ' :: (joinSep ('\n' :: '-' :: ' ' :: []) ls ++ '\n' :: post)) := by
  induction ls with
  | nil => intro l hl; simp at hl
  | cons x t ih =>
    intro l hl
    rcases List.mem_cons.mp hl with rfl | hl'
    · cases t with
      | nil =>
        refine ⟨[], post, ?_⟩
        simp [joinSep, List.append_assoc]
      | cons y t' =>
        refine ⟨[], '-' :: ' ' :: (joinSep ('\n' :: '-' :: ' ' :: []) (y :: t') ++ '\n' :: post), ?_⟩
        simp [joinSep, List.append_assoc]
    · cases t with
      | nil => simp at hl'
      | cons y t' =>
        obtain ⟨u, v, huv⟩ := ih l hl'
        refine ⟨('\n' :: '-' :: ' ' :: x) ++ u, v, ?_⟩
        have htar :
            ('\n' :: '-' :: ' ' ::
                (joinSep ('\n' :: '-' :: ' ' :: []) (x :: y :: t') ++ '\n' :: post))
              = ('\n' :: '-' :: ' ' :: x)
                  ++ ('\n' :: '-' :: ' ' ::
                      (joinSep ('\n' :: '-' :: ' ' :: []) (y :: t') ++ '\n' :: post)) := by
          simp [joinSep, List.append_assoc]
        rw [htar, ← huv]
        simp [List.append_assoc]

/-- Claim C6: the composed description always ends with the refinement
marker (the plain one without tasks, the broken-down one with tasks), and
contains each criterion of the criteria block on its own line prefixed with
a dash bullet, in both description variants. -/
theorem refined_description_marker_and_bullets (S C TB : Str) :
    mRefinedBy <:+ refined_description S C
      ∧ mRefinedBroken <:+ refined_description_tasks S C TB
      ∧ (∀ l ∈ splitlines C,
          ('\n' :: '-' :: ' ' :: (l ++ ['\n'])) <:+: refined_description S C)
      ∧ (∀ l ∈ splitlines C,
          ('\n' :: '-' :: ' ' :: (l ++ ['\n'])) <:+: refined_description_tasks S C TB) := by
  refine ⟨?_, ?_, ?_, ?_⟩
  · have h1 : mRefinedBy <:+ "\n\n_Refined by AI agent_".toList := by decide
    exact h1.trans (List.suffix_append _ _)
  · have h1 : mRefinedBroken <:+ "\n\n_Refined and broken down by AI agent_".toList := by decide
    exact h1.trans (List.suffix_append _ _)
  · intro l hl
    have hsplit : ("\n\n**Acceptance Criteria:**  \n- ").toList
        = ("\n\n**Acceptance Criteria:**  ").toList ++ ('\n' :: '-' :: ' ' :: []) := by decide
    have hdesc : refined_description S C
        = ("**Refined User Story:**  ".toList ++ S ++ "\n\n**Acceptance Criteria:**  ".toList)
            ++ ('\n' :: '-' :: ' ' ::
                (joinSep ('\n' :: '-' :: ' ' :: []) (splitlines C)
                  ++ '\n' :: ("\n_Refined by AI agent_".toList))) := by
      have hsep : ("\n- ").toList = ('\n' :: '-' :: ' ' :: []) := by decide
      have htail : ("\n\n_Refined by AI agent_").toList
          = '\n' :: ("\n_Refined by AI agent_".toList) := by decide
      rw [refined_description, hsplit, hsep, htail]
      simp [List.append_assoc]
    rw [hdesc]
    exact (bullet_occurs _ (splitlines C) l hl).trans (List.suffix_append _ _).isInfix
  · intro l hl
    have hsplit : ("\n\n**Acceptance Criteria:**  \n- ").toList
        = ("\n\n**Acceptance Criteria:**  ").toList ++ ('\n' :: '-' :: ' ' :: []) := by decide
    have hdesc : refined_description_tasks S C TB
        = ("**Refined User Story:**  ".toList ++ S ++ "\n\n**Acceptance Criteria:**  ".toList)
            ++ ('\n' :: '-' :: ' ' ::
                (joinSep ('\n' :: '-' :: ' ' :: []) (splitlines C)
                  ++ '\n' :: ("\n**Implementation Tasks:**\n".toList ++ TB
                      ++ "\n\n_Refined and broken down by AI agent_".toList))) := by
      have hsep : ("\n- ").toList = ('\n' :: '-' :: ' ' :: []) := by decide
      have htail : ("\n\n**Implementation Tasks:**\n").toList
          = '\n' :: ("\n**Implementation Tasks:**\n".toList) := by decide
      rw [refined_description_tasks, hsplit, hsep, htail]
      simp [List.append_assoc]
    rw [hdesc]
    exact (bullet_occurs _ (splitlines C) l hl).trans (List.suffix_append _ _).isInfix

/-- Witness for claim C6: one concrete criterion appears as its own bulleted
line of the composed description. -/
theorem refined_description_marker_and_bullets_witness :
    ('\n' :: '-' :: ' ' :: ("User can log in with email".toList ++ ['\n']))
      <:+: refined_description ("Add login flow".toList)
            ("User can log in with email\nPassword reset available".toList) :=
  (refined_description_marker_and_bullets ("Add login flow".toList)
      ("User can log in with email\nPassword reset available".toList) []).2.2.1
    ("User can log in with email".toList) (by decide)

/-! The sub-task replacement plan against the tracker collaborator. -/

/-- Observable tracker operation attempted by the replacement flow: a
deletion attempt for a key, an error report for a failed deletion, or a
creation attempt for a new sub-task summary. -/
inductive SubtaskAction
  | delete (key : Str)
  | reportFailure (key : Str)
  | create (summary : Str)
deriving DecidableEq

/-- delete_existing_subtasks (Dynamic_UI7.py lines 67-75): attempt the
deletion of every existing sub-task key in order; a failed deletion is
reported (st.error inside the except branch) and the loop continues with the
remaining keys.  deleteFails says which keys' deletions raise. -/
def delete_existing_subtasks (deleteFails : Str → Bool) : List Str → List SubtaskAction
  | [] => []
  | k :: ks =>
    (SubtaskAction.delete k
        :: (if deleteFails k then [SubtaskAction.reportFailure k] else []))
      ++ delete_existing_subtasks deleteFails ks

/-- Replacement flow of the Create Jira Sub-tasks button (lines 304-318):
delete all existing sub-tasks first, then attempt one creation per filtered
task line. -/
def replace_subtasks (deleteFails : Str → Bool) (existing newLines : List Str) :
    List SubtaskAction :=
  delete_existing_subtasks deleteFails existing ++ newLines.map SubtaskAction.create

/-- Key of a deletion attempt, if the action is one. -/
def deleteKeyOf : SubtaskAction → Option Str
  | SubtaskAction.delete k => some k
  | SubtaskAction.reportFailure _ => none
  | SubtaskAction.create _ => none

/-- Whether the action is a creation attempt. -/
def isCreateAction : SubtaskAction → Bool
  | SubtaskAction.create _ => true
  | SubtaskAction.delete _ => false
  | SubtaskAction.reportFailure _ => false

theorem delete_existing_subtasks_keys (deleteFails : Str → Bool) (ks : List Str) :
    (delete_existing_subtasks deleteFails ks).filterMap deleteKeyOf = ks := by
  induction ks with
  | nil => rfl
  | cons k ks ih =>
    by_cases h : deleteFails k = true
    · simp [delete_existing_subtasks, deleteKeyOf, h, ih]
    · simp [delete_existing_subtasks, deleteKeyOf, h, ih]

theorem delete_existing_subtasks_no_create (deleteFails : Str → Bool) (ks : List Str) :
    (delete_existing_subtasks deleteFails ks).countP isCreateAction = 0 := by
  induction ks with
  | nil => rfl
  | cons k ks ih =>
    by_cases h : deleteFails k = true
    · simp [delete_existing_subtasks, isCreateAction, h, List.countP_cons, ih]
    · simp [delete_existing_subtasks, isCreateAction, h, List.countP_cons, ih]

/-- Claim C8: the replacement attempts the deletion of every existing
sub-task key (in order, regardless of which deletions fail) before any
creation is attempted, and attempts exactly one creation per new task line;
on the concrete instance with keys SUB-1, SUB-2 (the deletion of SUB-1
failing) and task lines Task A, Task B, both keys are deleted and exactly
two creations are attempted. -/
theorem replace_subtasks_plan (deleteFails : Str → Bool) (existing newLines : List Str) :
    (delete_existing_subtasks deleteFails existing).filterMap deleteKeyOf = existing
      ∧ replace_subtasks deleteFails existing newLines
          = delete_existing_subtasks deleteFails existing
            ++ newLines.map SubtaskAction.create
      ∧ (replace_subtasks deleteFails existing newLines).countP isCreateAction
          = newLines.length
      ∧ replace_subtasks (fun k => k = "SUB-1".toList)
            ["SUB-1".toList, "SUB-2".toList] ["Task A".toList, "Task B".toList]
          = [SubtaskAction.delete ("SUB-1".toList),
             SubtaskAction.reportFailure ("SUB-1".toList),
             SubtaskAction.delete ("SUB-2".toList),
             SubtaskAction.create ("Task A".toList),
             SubtaskAction.create ("Task B".toList)] := by
  refine ⟨delete_existing_subtasks_keys deleteFails existing, rfl, ?_, by decide⟩
  unfold replace_subtasks
  rw [List.countP_append, delete_existing_subtasks_no_create]
  simp [List.countP_map, Function.comp, isCreateAction]

/-- Fields of a sub-task creation request. -/
structure SubtaskFields where
  projectKey : Str
  parentKey : Str
  summary : Str
  description : Str
  issuetypeName : Str
deriving DecidableEq

/-- create_jira_subtask (Dynamic_UI7.py lines 53-65): raise when the parent
issue is itself a sub-task, otherwise build the creation fields with the
summary truncated to 255 characters and an empty description.
parentIsSubtask is the fetched parent issue's issuetype.subtask flag; the
raised exception is modelled as the error branch, in which no creation
request is produced. -/
def create_jira_subtask (parentIsSubtask : Bool)
    (parent_issue_key summary project_key subtask_issue_type : Str) :
    Except Str SubtaskFields :=
  if parentIsSubtask then
    Except.error ("Cannot create a sub-task under a sub-task!".toList)
  else
    Except.ok
      { projectKey := project_key
        parentKey := parent_issue_key
        summary := summary.take 255
        description := []
        issuetypeName := subtask_issue_type }

/-- Claim C9: sub-task creation raises when the target parent is itself a
sub-task and produces no creation request in that case; a creation request
is produced exactly when the parent is not a sub-task. -/
theorem create_jira_subtask_refusal (pk s proj ty : Str) :
    create_jira_subtask true pk s proj ty
        = Except.error ("Cannot create a sub-task under a sub-task!".toList)
      ∧ create_jira_subtask false pk s proj ty
          = Except.ok
              { projectKey := proj, parentKey := pk, summary := s.take 255,
                description := [], issuetypeName := ty }
      ∧ (∀ b : Bool,
          (∃ f, create_jira_subtask b pk s proj ty = Except.ok f) ↔ b = false) := by
  refine ⟨rfl, rfl, ?_⟩
  intro b
  cases b <;> simp [create_jira_subtask]

/-! Structural facts about strip and join, used to trace the rendered
criteria and suggestions line lists back to the accumulated criteria
lines. -/

theorem stripLeft_cons_head {c : Char} {t : Str} (h : stripLeft (c :: t) = c :: t) :
    isPySpace c = false := by
  rcases hb : isPySpace c with _ | _
  · rfl
  · exfalso
    rw [stripLeft, List.dropWhile_cons_of_pos hb] at h
    have hlen := congrArg List.length h
    have hle := (List.dropWhile_sublist (l := t) isPySpace).length_le
    rw [List.length_cons] at hlen
    omega

theorem stripLeft_pstrip (s : Str) : stripLeft (pstrip s) = pstrip s := by
  unfold pstrip
  exact stripLeft_front_part (stripRight_front (stripLeft s)) (stripLeft_idem s)

theorem stripRight_pstrip (s : Str) : stripRight (pstrip s) = pstrip s := by
  unfold pstrip
  rw [stripRight_idem]

theorem stripLeft_reverse_of_stripRight {a : Str} (h : stripRight a = a) :
    stripLeft a.reverse = a.reverse := by
  unfold stripRight at h
  have h2 := congrArg List.reverse h
  rw [List.reverse_reverse] at h2
  exact h2

theorem stripLeft_append {a : Str} (ha : stripLeft a = a) (hne : a ≠ []) (r : Str) :
    stripLeft (a ++ r) = a ++ r := by
  rcases a with _ | ⟨c, a'⟩
  · exact absurd rfl hne
  · have hc := stripLeft_cons_head ha
    rw [List.cons_append, stripLeft, List.dropWhile_cons_of_neg (by simp [hc])]

theorem joinSep_snoc (sep z : Str) :
    ∀ ls : List Str, ls ≠ [] → joinSep sep (ls ++ [z]) = joinSep sep ls ++ sep ++ z := by
  intro ls
  induction ls with
  | nil => intro h; exact absurd rfl h
  | cons x t ih =>
    intro _
    cases t with
    | nil => simp [joinSep]
    | cons y t' =>
      have hrec := ih (by simp)
      simp only [List.cons_append] at hrec ⊢
      simp only [joinSep]
      rw [hrec]
      simp [List.append_assoc]

theorem joinSep_nl_reverse :
    ∀ ms : List Str,
      (joinSep ['\n'] ms).reverse = joinSep ['\n'] (ms.reverse.map List.reverse) := by
  intro ms
  induction ms with
  | nil => rfl
  | cons x t ih =>
    cases t with
    | nil => simp [joinSep]
    | cons y t' =>
      have hj : joinSep ['\n'] (x :: y :: t') = (x ++ ['\n']) ++ joinSep ['\n'] (y :: t') := by
        simp [joinSep, List.append_assoc]
      rw [hj, List.reverse_append, List.reverse_append, ih]
      have hsnoc := joinSep_snoc ['\n'] x.reverse ((y :: t').reverse.map List.reverse) (by simp)
      rw [show (x :: y :: t').reverse.map List.reverse
          = (y :: t').reverse.map List.reverse ++ [x.reverse] from by simp]
      rw [hsnoc]
      simp [List.append_assoc]

theorem dropWhile_isEmpty_map_reverse (ms : List Str) :
    (ms.map List.reverse).dropWhile (fun l => l.isEmpty)
      = (ms.dropWhile (fun l => l.isEmpty)).map List.reverse := by
  induction ms with
  | nil => rfl
  | cons x t ih =>
    by_cases h : x.isEmpty = true
    · have hx : x = [] := List.isEmpty_iff.mp h
      subst hx
      simpa using ih
    · have hrev : (x.reverse).isEmpty = false := by
        have hx : x ≠ [] := by simpa [List.isEmpty_iff] using h
        simp [List.isEmpty_iff, hx]
      rw [List.map_cons, List.dropWhile_cons_of_neg (by simp [hrev]),
        List.dropWhile_cons_of_neg (by simp [h]), List.map_cons]

theorem stripLeft_joinSep :
    ∀ ms : List Str, (∀ l ∈ ms, stripLeft l = l) →
      stripLeft (joinSep ['\n'] ms)
        = joinSep ['\n'] (ms.dropWhile (fun l => l.isEmpty)) := by
  intro ms
  induction ms with
  | nil => intro _; rfl
  | cons a t ih =>
    intro h
    have ha := h a (List.mem_cons_self _ _)
    have ht := fun l hl => h l (List.mem_cons_of_mem _ hl)
    by_cases he : a.isEmpty = true
    · have ha0 : a = [] := List.isEmpty_iff.mp he
      subst ha0
      cases t with
      | nil => rfl
      | cons y t' =>
        rw [show joinSep ['\n'] ([] :: y :: t') = '\n' :: joinSep ['\n'] (y :: t') from by
          simp [joinSep]]
        rw [show stripLeft ('\n' :: joinSep ['\n'] (y :: t'))
            = stripLeft (joinSep ['\n'] (y :: t')) from by
          rw [stripLeft, List.dropWhile_cons_of_pos (by decide)]; rfl]
        rw [ih ht]
        rw [show List.dropWhile (fun l : Str => l.isEmpty) ([] :: y :: t')
            = List.dropWhile (fun l : Str => l.isEmpty) (y :: t') from
          List.dropWhile_cons_of_pos (by simp)]
    · have ha0 : a ≠ [] := by simpa [List.isEmpty_iff] using he
      cases t with
      | nil =>
        rw [show joinSep ['\n'] [a] = a from rfl,
          List.dropWhile_cons_of_neg (by simp [he]),
          show joinSep ['\n'] [a] = a from rfl]
        exact ha
      | cons y t' =>
        rw [show joinSep ['\n'] (a :: y :: t')
            = a ++ ('\n' :: joinSep ['\n'] (y :: t')) from by
          simp [joinSep, List.append_assoc]]
        rw [stripLeft_append ha ha0, List.dropWhile_cons_of_neg (by simp [he])]
        simp [joinSep, List.append_assoc]

theorem stripRight_joinSep (ms : List Str) (h : ∀ l ∈ ms, stripRight l = l) :
    stripRight (joinSep ['\n'] ms)
      = joinSep ['\n'] ((ms.reverse.dropWhile (fun l => l.isEmpty)).reverse) := by
  have h1 : stripRight (joinSep ['\n'] ms)
      = (stripLeft ((joinSep ['\n'] ms).reverse)).reverse := rfl
  rw [h1, joinSep_nl_reverse]
  rw [stripLeft_joinSep (ms.reverse.map List.reverse) ?hstr]
  case hstr =>
    intro l hl
    obtain ⟨a, ha, rfl⟩ := List.mem_map.mp hl
    exact stripLeft_reverse_of_stripRight (h a (List.mem_reverse.mp ha))
  rw [dropWhile_isEmpty_map_reverse, joinSep_nl_reverse]
  congr 1
  simp [List.map_map, Function.comp]

/-- Empty entries removed from both ends of a line list: the shape of a
newline-joined list after a full Python strip. -/
def trimEmpties (ms : List Str) : List Str :=
  ((ms.dropWhile (fun l => l.isEmpty)).reverse.dropWhile (fun l => l.isEmpty)).reverse

theorem pstrip_joinSep (ms : List Str)
    (h : ∀ l ∈ ms, stripLeft l = l ∧ stripRight l = l) :
    pstrip (joinSep ['\n'] ms) = joinSep ['\n'] (trimEmpties ms) := by
  unfold pstrip
  rw [stripLeft_joinSep ms (fun l hl => (h l hl).1)]
  rw [stripRight_joinSep _ ?h2]
  case h2 =>
    intro l hl
    exact (h l ((List.dropWhile_sublist _).subset hl)).2
  rfl

theorem mem_trimEmpties {ms : List Str} {x : Str} (h : x ∈ trimEmpties ms) : x ∈ ms := by
  unfold trimEmpties at h
  rw [List.mem_reverse] at h
  have h2 := (List.dropWhile_sublist _).subset h
  rw [List.mem_reverse] at h2
  exact (List.dropWhile_sublist _).subset h2

theorem dropWhile_isEmpty_head_ne {l : List Str} {h0 : Str} {t0 : List Str}
    (h : l.dropWhile (fun x => x.isEmpty) = h0 :: t0) : h0 ≠ [] := by
  induction l with
  | nil => simp at h
  | cons a r ih =>
    by_cases ha : a.isEmpty = true
    · rw [List.dropWhile_cons_of_pos ha] at h
      exact ih h
    · rw [List.dropWhile_cons_of_neg ha] at h
      injection h with h1 h2
      subst h1
      simpa [List.isEmpty_iff] using ha

theorem trimEmpties_getLast (ms : List Str) :
    (trimEmpties ms).getLast? ≠ some ([] : Str) := by
  unfold trimEmpties
  rw [List.getLast?_reverse]
  rcases hX : ((ms.dropWhile (fun l => l.isEmpty)).reverse).dropWhile (fun l => l.isEmpty)
      with _ | ⟨h0, t0⟩
  · rw [hX]; simp
  · have hne := dropWhile_isEmpty_head_ne hX
    rw [hX]
    simp [hne]

theorem normalizeCRLF_eq_self : ∀ s : Str, '\r' ∉ s → normalizeCRLF s = s := by
  intro s
  induction s with
  | nil => intro _; rfl
  | cons c rest ih =>
    intro h
    cases rest with
    | nil => rfl
    | cons d rest' =>
      have hc : c ≠ '\r' := fun he => h (by simp [he])
      have hr : '\r' ∉ d :: rest' := fun hm => h (List.mem_cons_of_mem _ hm)
      simp only [normalizeCRLF]
      rw [if_neg (by simp [hc])]
      rw [ih hr]

theorem splitOnNl_no_boundary (x : Str) (h1 : '\n' ∉ x) (h2 : '\r' ∉ x) :
    splitOnNl x = [x] := by
  induction x with
  | nil => rfl
  | cons c t ih =>
    have hcn : c ≠ '\n' := fun he => h1 (by simp [he])
    have hcr : c ≠ '\r' := fun he => h2 (by simp [he])
    simp only [splitOnNl]
    rw [if_neg (by simp [hcn, hcr])]
    rw [ih (fun hm => h1 (List.mem_cons_of_mem _ hm)) (fun hm => h2 (List.mem_cons_of_mem _ hm))]

theorem splitOnNl_append (x : Str) (h1 : '\n' ∉ x) (h2 : '\r' ∉ x) (s : Str) :
    ∀ l ls, splitOnNl s = l :: ls → splitOnNl (x ++ s) = (x ++ l) :: ls := by
  induction x with
  | nil => intro l ls h; simpa using h
  | cons c t ih =>
    intro l ls h
    have hcn : c ≠ '\n' := fun he => h1 (by simp [he])
    have hcr : c ≠ '\r' := fun he => h2 (by simp [he])
    have ht := ih (fun hm => h1 (List.mem_cons_of_mem _ hm))
      (fun hm => h2 (List.mem_cons_of_mem _ hm)) l ls h
    rw [List.cons_append]
    simp only [splitOnNl]
    rw [if_neg (by simp [hcn, hcr])]
    rw [ht]
    simp

theorem splitOnNl_joinSep :
    ∀ ms : List Str, ms ≠ [] → (∀ l ∈ ms, '\n' ∉ l ∧ '\r' ∉ l) →
      splitOnNl (joinSep ['\n'] ms) = ms := by
  intro ms
  induction ms with
  | nil => intro h; exact absurd rfl h
  | cons x t ih =>
    intro _ h
    have hx := h x (List.mem_cons_self _ _)
    cases t with
    | nil => exact splitOnNl_no_boundary x hx.1 hx.2
    | cons y t' =>
      have hrec := ih (by simp) (fun l hl => h l (List.mem_cons_of_mem _ hl))
      have hj : joinSep ['\n'] (x :: y :: t') = x ++ ('\n' :: joinSep ['\n'] (y :: t')) := by
        simp [joinSep]
      rw [hj]
      have hnl : splitOnNl ('\n' :: joinSep ['\n'] (y :: t'))
          = [] :: splitOnNl (joinSep ['\n'] (y :: t')) := by
        simp only [splitOnNl]
        rw [if_pos (by simp)]
      have happ := splitOnNl_append x hx.1 hx.2 ('\n' :: joinSep ['\n'] (y :: t'))
        [] (splitOnNl (joinSep ['\n'] (y :: t'))) hnl
      rw [happ, hrec]
      simp

theorem splitlines_joinSep (ms : List Str) (hne : ms ≠ [])
    (hb : ∀ l ∈ ms, '\n' ∉ l ∧ '\r' ∉ l)
    (hlast : ms.getLast? ≠ some ([] : Str)) :
    splitlines (joinSep ['\n'] ms) = ms := by
  have hr : '\r' ∉ joinSep ['\n'] ms := by
    intro hm
    rcases mem_joinSep hm with hsep | ⟨l, hl, hc⟩
    · simp at hsep
    · exact (hb l hl).2 hc
  unfold splitlines
  rw [normalizeCRLF_eq_self _ hr, splitOnNl_joinSep ms hne hb]
  rw [if_neg hlast]

/-! The criteria and suggestions line lists rendered from the criteria
block. -/

/-- Rendered line list of one part of the criteria block (Dynamic_UI7.py
lines 240-244): the part is stripped, split into lines, and falsy (empty)
lines are dropped. -/
def displayLines (part : Str) : List Str :=
  (splitlines (pstrip part)).filter (fun l => !l.isEmpty)

/-- Criteria and suggestions line lists produced from the criteria block
(Dynamic_UI7.py lines 238-244): when the suggestions marker occurs in the
block, the block is split at its first occurrence and both parts are
rendered; otherwise the whole block is the criteria part and the
suggestions part is absent. -/
def refined_lists (refined_criteria : Str) : List Str × Option (List Str) :=
  match split1 mSuggestions refined_criteria with
  | (before, some after) => (displayLines before, some (displayLines after))
  | (before, none) => (displayLines before, none)

theorem mem_displayLines_ne_nil {part x : Str} (h : x ∈ displayLines part) : x ≠ [] := by
  have h2 := (List.mem_filter.mp h).2
  simpa [List.isEmpty_iff] using h2

theorem displayLines_block_subset (acc : List Str)
    (h : ∀ a ∈ acc, stripLeft a = a ∧ stripRight a = a ∧ '\n' ∉ a ∧ '\r' ∉ a) :
    ∀ x ∈ displayLines (pstrip (joinSep ['\n'] acc)), x ∈ acc := by
  intro x hx
  unfold displayLines at hx
  rw [pstrip_idem] at hx
  rw [pstrip_joinSep acc (fun a ha => ⟨(h a ha).1, (h a ha).2.1⟩)] at hx
  rcases htr : trimEmpties acc with _ | ⟨z, zs⟩
  · rw [htr] at hx
    rw [show (splitlines (joinSep ['\n'] ([] : List Str))).filter (fun l => !l.isEmpty)
        = [] from rfl] at hx
    exact absurd hx (List.not_mem_nil x)
  · rw [htr] at hx
    rw [splitlines_joinSep (z :: zs) (by simp) ?hb ?hl] at hx
    case hb =>
      intro l hl
      have hmem : l ∈ acc := mem_trimEmpties (htr ▸ hl)
      exact ⟨(h l hmem).2.2.1, (h l hmem).2.2.2⟩
    case hl =>
      rw [← htr]
      exact trimEmpties_getLast acc
    have hx2 := (List.mem_filter.mp hx).1
    exact mem_trimEmpties (htr ▸ hx2)

/-- Claim C3 counterexample: when the suggestions marker occurs in the
middle of a criteria line followed by the dashes token, the suggestions
sequence rendered from the model reply contains the literal dashes
separator, contradicting the claim. -/
theorem refined_lists_dashes_counterexample :
    (refined_lists (parse_refined_output
        ("**Acceptance Criteria:**\ncrit one\nfoo **Suggestions for Improvement:** ---".toList)).2).2
      = some [dashes] := by decide

/-- Claim C3 (amended): the criteria and suggestions sequences rendered from
any model reply never contain a blank line; and whenever the suggestions
marker does not occur inside the returned criteria block (in particular
whenever the marker only ever occupies criteria lines of its own in the
reply), the criteria sequence never contains the dashes separator and the
suggestions sequence is absent.  The unamended claim fails: splitting at a
mid-line occurrence of the suggestions marker can expose a dashes line, as
the counterexample shows. -/
theorem refined_lists_no_blank_no_dashes (output : Str) :
    (∀ x ∈ (refined_lists (parse_refined_output output).2).1, x ≠ [])
      ∧ (∀ sg, (refined_lists (parse_refined_output output).2).2 = some sg →
          ∀ x ∈ sg, x ≠ [])
      ∧ (¬ mSuggestions <:+: (parse_refined_output output).2 →
          (∀ x ∈ (refined_lists (parse_refined_output output).2).1, x ≠ dashes)
            ∧ (refined_lists (parse_refined_output output).2).2 = none) := by
  refine ⟨?_, ?_, ?_⟩
  · intro x hx
    rcases hs : split1 mSuggestions (parse_refined_output output).2 with ⟨before, after?⟩
    rcases after? with _ | after
    · simp only [refined_lists, hs] at hx
      exact mem_displayLines_ne_nil hx
    · simp only [refined_lists, hs] at hx
      exact mem_displayLines_ne_nil hx
  · intro sg hsg x hx
    rcases hs : split1 mSuggestions (parse_refined_output output).2 with ⟨before, after?⟩
    rcases after? with _ | after
    · simp only [refined_lists, hs] at hsg
      exact absurd hsg (by simp)
    · simp only [refined_lists, hs, Option.some.injEq] at hsg
      subst hsg
      exact mem_displayLines_ne_nil hx
  · intro hninf
    have hf : findSub mSuggestions (parse_refined_output output).2 = none := by
      rcases hf : findSub mSuggestions (parse_refined_output output).2 with _ | k
      · rfl
      · exact absurd ((infix_iff_drop _ _).mpr ⟨k, findSub_eq_some _ _ k hf⟩) hninf
    have hs : split1 mSuggestions (parse_refined_output output).2
        = ((parse_refined_output output).2, none) := by
      unfold split1
      rw [hf]
    have hprops : ∀ a ∈ (scanClassify PMode.none (splitlines output)).2,
        stripLeft a = a ∧ stripRight a = a ∧ '\n' ∉ a ∧ '\r' ∉ a := by
      intro a ha
      obtain ⟨l, hl, he, hne⟩ := scanClassify_snd_mem (splitlines output) PMode.none a ha
      subst he
      refine ⟨stripLeft_pstrip l, stripRight_pstrip l, ?_, ?_⟩
      · intro hm
        exact (mem_splitlines output l hl).1 (mem_of_mem_pstrip hm)
      · intro hm
        exact (mem_splitlines output l hl).2 (mem_of_mem_pstrip hm)
    constructor
    · intro x hx
      simp only [refined_lists, hs] at hx
      have hb2 : (parse_refined_output output).2
          = pstrip (joinSep ['\n'] (scanClassify PMode.none (splitlines output)).2) := by
        rw [parse_eq_scanClassify output]
      rw [hb2] at hx
      have hxmem := displayLines_block_subset _ hprops x hx
      obtain ⟨l, hl, he, hne⟩ := scanClassify_snd_mem (splitlines output) PMode.none x hxmem
      exact hne
    · simp only [refined_lists, hs]

/-- Witness for the amended claim C3 at a concrete marker-free reply. -/
theorem refined_lists_no_blank_no_dashes_witness :
    ("- c1".toList ≠ ([] : Str))
      ∧ ("- c1".toList ≠ dashes)
      ∧ (refined_lists (parse_refined_output
            ("**Acceptance Criteria:**\n- c1\n\n- c2".toList)).2).2 = none :=
  ⟨(refined_lists_no_blank_no_dashes
        ("**Acceptance Criteria:**\n- c1\n\n- c2".toList)).1 ("- c1".toList) (by decide),
   ((refined_lists_no_blank_no_dashes
        ("**Acceptance Criteria:**\n- c1\n\n- c2".toList)).2.2 (by decide)).1
      ("- c1".toList) (by decide),
   ((refined_lists_no_blank_no_dashes
        ("**Acceptance Criteria:**\n- c1\n\n- c2".toList)).2.2 (by decide)).2⟩

end StoryRefiner
